import Mathlib

/-!
Verification of the parallel chess-engine search core (search-rs.cpp,
search-sht.cpp and the MPI variant) against its specification.

The chess rules library (libchess), the static evaluator and search.h are
external collaborators of the repository; they are modelled by the abstract
interface `GameOps` below, and their numeric constants by the constants
section.  Every search routine is a direct transcription of the
corresponding C++ function; recursion is made structural with an explicit
fuel argument (the C++ recursion terminates because depth strictly
decreases towards the quiescence search, whose own recursion is bounded by
MAX_PLY; fuel larger than the remaining depth makes the two agree).
-/

namespace HpcSearch

/-- Modelled from the spec: the numeric constants of search.h, which is not
part of the repository sources given here.  The spec mandates only
INFINITE > MATE_SCORE > MAX_MATE_SCORE > any non-mate evaluation, and
0 <= ply < MAX_PLY; the concrete values below satisfy those relations. -/
def MAX_PLY : Nat := 128

/-- Modelled from the spec: mate score base, see MAX_PLY. -/
def MATE_SCORE : Int := 30000

/-- Modelled from the spec: threshold above which a score is a mate score. -/
def MAX_MATE_SCORE : Int := 29000

/-- Modelled from the spec: the infinite window bound, larger than any
score. -/
def INFINITE : Int := 31000

/-- Modelled from the spec: the piece-type index of a pawn in the MATERIAL
table of evaluation.h. -/
def PAWN : Nat := 0

/-- The type tag of a libchess Move: quiet/capture moves, en passant and
promotions (the only tags the search inspects). -/
inductive MvType where
  | normal
  | enpassant
  | promotion
deriving DecidableEq, Repr

/-- A libchess Move, reduced to the fields the search reads: the 16-bit
encoded value, the from/to squares and the type tag. -/
structure Mv where
  value : Nat
  fromSq : Nat
  toSq : Nat
  mtype : MvType
deriving DecidableEq, Repr

/-- search::SearchResult: a score and an optional principal variation
(none models an empty optional, some models an engaged MoveList). -/
structure SearchResultE where
  score : Int
  pv : Option (List Mv)
deriving DecidableEq, Repr

/-- Unary minus on SearchResult as used by the C++ code: negate the score,
keep the child PV (modelled from the spec, step 8 of 4.2: the score is
negated and the child PV is reused to rebuild the parent PV). -/
def negR (r : SearchResultE) : SearchResultE := ⟨-r.score, r.pv⟩

/-- The abstract interface to libchess and the evaluator, the external
collaborators of the search (spec section 1: positions, moves and the
evaluation are primitives).  A `GameOps Pos` value packages every
operation the transcribed search code calls on a position. -/
structure GameOps (Pos : Type) where
  evaluate : Pos → Int
  inCheck : Pos → Bool
  legalMoves : Pos → List Mv
  checkEvasions : Pos → List Mv
  captureMoves : Pos → List Mv
  promotions : Pos → List Mv
  isLegalGenerated : Pos → Mv → Bool
  makeMove : Pos → Mv → Pos
  makeNullMove : Pos → Pos
  halfmoves : Pos → Nat
  isRepeat : Pos → Bool
  pieceTypeOn : Pos → Nat → Option Nat
  material : Nat → Int
  hash : Pos → Nat
  fen : Pos → String
  posOfFen : String → Pos
  moveOfValue : Nat → Mv

/-- The move-ordering key of sort_moves (search-rs.cpp lines 25-52,
identical in search-sht.cpp and the MPI variant): 20000 for the TT move,
10000 + pawn + 20 for en passant, 10000 + capture value for a good
capture, 5000 + capture value for a bad capture, 0 for a quiet move. -/
def sortKey {Pos : Type} (g : GameOps Pos) (pos : Pos) (ttMove : Option Mv)
    (m : Mv) : Int :=
  let fromPt := (g.pieceTypeOn pos m.fromSq).getD 0
  let toPt := g.pieceTypeOn pos m.toSq
  let pawnValue := g.material PAWN
  let equalityBound := pawnValue - 50
  if ttMove = some m then 20000
  else if m.mtype = MvType.enpassant then 10000 + pawnValue + 20
  else
    match toPt with
    | some victim =>
        let captureValue := g.material victim - g.material fromPt
        if captureValue ≥ equalityBound then 10000 + captureValue
        else 5000 + captureValue
    | none => 0

/-- Stable insertion into a list kept in decreasing key order: the new
element passes over strictly smaller keys only, so elements of equal key
keep their original relative order. -/
def insertDesc (key : Mv → Int) (m : Mv) : List Mv → List Mv
  | [] => [m]
  | x :: xs => if key m > key x then m :: x :: xs else x :: insertDesc key m xs

/-- Modelled from the spec: MoveList::sort is a libchess primitive (not in
the repository); per spec sections 4.2 and 8 it is a deterministic stable
sort in decreasing key order.  Folding a stable insertion from the left
realises exactly that. -/
def sortMoves {Pos : Type} (g : GameOps Pos) (pos : Pos) (ttMove : Option Mv)
    (moves : List Mv) : List Mv :=
  moves.foldl (fun acc m => insertDesc (sortKey g pos ttMove) m acc) []

/-- The move loop of qsearch_impl (search-rs.cpp lines 87-111): skip
illegal generated moves, recurse with the negated window through `rec`,
return 0 on stop, raise best and alpha, break on alpha >= beta; after the
loop return alpha. -/
def qLoop {Pos : Type} (g : GameOps Pos) (rec : Pos → Int → Int → Nat → Int)
    (pos : Pos) (beta : Int) (ply : Nat) (stop : Bool) :
    List Mv → Int → Int → Int
  | [], alpha, _ => alpha
  | m :: rest, alpha, best =>
    if g.isLegalGenerated pos m = false then
      qLoop g rec pos beta ply stop rest alpha best
    else
      let score := - rec (g.makeMove pos m) (-beta) (-alpha) (ply + 1)
      if stop then 0
      else if score > best then
        if score > alpha then
          if score ≥ beta then score
          else qLoop g rec pos beta ply stop rest score score
        else qLoop g rec pos beta ply stop rest alpha score
      else qLoop g rec pos beta ply stop rest alpha best

/-- qsearch_impl (search-rs.cpp lines 54-112; byte-identical in
search-sht.cpp and the MPI variant): stop check, MAX_PLY guard, stand-pat
(raise alpha to the static evaluation, return beta on eval >= beta),
check evasions or captures plus promotions, then the move loop. -/
def qsearchImpl {Pos : Type} (g : GameOps Pos) :
    Nat → Pos → Int → Int → Nat → Bool → Int
  | 0, _, _, _, _, _ => 0
  | fuel + 1, pos, alpha, beta, ply, stop =>
    if stop then 0
    else if ply ≥ MAX_PLY then g.evaluate pos
    else
      let ev := g.evaluate pos
      let alpha1 := if ev > alpha then ev else alpha
      if ev ≥ beta then beta
      else if g.inCheck pos then
        let ml := g.checkEvasions pos
        if ml.isEmpty then
          (if g.inCheck pos then -MATE_SCORE + (ply : Int) else 0)
        else
          qLoop g (fun p a b pl => qsearchImpl g fuel p a b pl stop) pos beta
            ply stop (sortMoves g pos none ml) alpha1 (-INFINITE)
      else
        let ml := g.captureMoves pos ++ g.promotions pos
        qLoop g (fun p a b pl => qsearchImpl g fuel p a b pl stop) pos beta
          ply stop (sortMoves g pos none ml) alpha1 (-INFINITE)

/-- The PVS move loop of search_impl in search-rs.cpp (lines 157-191):
full window for the first move, scout window then full re-search for the
others, stop check after each child, best/alpha/PV update, break on
alpha >= beta; after the loop return the best score with the engaged PV.
`rec` is the recursive search at depth - 1 and ply + 1. -/
def rsLoop {Pos : Type} (g : GameOps Pos) (pos : Pos)
    (rec : Pos → Int → Int → SearchResultE) (beta : Int) (ply : Nat)
    (stop : Bool) (pvNode : Bool) :
    List Mv → Nat → Int → Int → List Mv → SearchResultE
  | [], _, _, best, pv => ⟨best, some pv⟩
  | m :: rest, n, alpha, best, pv =>
    let child := g.makeMove pos m
    let r1 := if n = 1 then negR (rec child (-beta) (-alpha))
              else negR (rec child (-alpha - 1) (-alpha))
    let r := if n ≠ 1 ∧ r1.score > alpha then negR (rec child (-beta) (-alpha))
             else r1
    if ply ≠ 0 ∧ stop then ⟨0, none⟩
    else if r.score > best then
      if r.score > alpha then
        let pv1 := if pvNode then m :: r.pv.getD [] else pv
        if r.score ≥ beta then ⟨r.score, some pv1⟩
        else rsLoop g pos rec beta ply stop pvNode rest (n + 1) r.score r.score pv1
      else rsLoop g pos rec beta ply stop pvNode rest (n + 1) alpha r.score pv
    else rsLoop g pos rec beta ply stop pvNode rest (n + 1) alpha best pv

/-- search_impl of the root-splitting variant (search-rs.cpp lines
115-193): quiescence at depth <= 0; at ply > 0 the stop, fifty-move,
repetition and MAX_PLY guards and mate-distance pruning; then move
generation (mate or stalemate score on an empty list), sorting without a
TT move, and the PVS loop. -/
def searchImplRs {Pos : Type} (g : GameOps Pos) :
    Nat → Pos → Int → Int → Int → Nat → Bool → SearchResultE
  | 0, _, _, _, _, _, _ => ⟨0, none⟩
  | fuel + 1, pos, alpha, beta, depth, ply, stop =>
    if depth ≤ 0 then ⟨qsearchImpl g (fuel + 1) pos alpha beta ply stop, none⟩
    else if ply ≠ 0 ∧ stop then ⟨0, none⟩
    else if ply ≠ 0 ∧ (100 ≤ g.halfmoves pos ∨ g.isRepeat pos = true) then ⟨0, none⟩
    else if ply ≠ 0 ∧ MAX_PLY ≤ ply then ⟨g.evaluate pos, none⟩
    else
      let alpha1 := if ply ≠ 0 then max (-MATE_SCORE + (ply : Int)) alpha else alpha
      let beta1 := if ply ≠ 0 then min (MATE_SCORE - (ply : Int)) beta else beta
      if ply ≠ 0 ∧ alpha1 ≥ beta1 then ⟨alpha1, none⟩
      else
        let pvNode := decide (alpha1 ≠ beta1 - 1)
        let moveList := g.legalMoves pos
        if moveList.isEmpty then
          ⟨if g.inCheck pos then -MATE_SCORE + (ply : Int) else 0, none⟩
        else
          rsLoop g pos
            (fun p a b => searchImplRs g fuel p a b (depth - 1) (ply + 1) stop)
            beta1 ply stop pvNode (sortMoves g pos none moveList) 1 alpha1
            (-INFINITE) []

/-- The bound kind of a TT entry: EXACT, LOWER_BOUND, UPPER_BOUND. -/
inductive TTFlag where
  | EXACT
  | LOWER
  | UPPER
deriving DecidableEq, Repr

/-- A transposition-table slot: key, depth, score, best-move value and
bound kind (TTEntry of the MPI variant, and equally the fields read
through get_key/get_depth/get_score/get_move/get_flag of tt.h). -/
structure TTEntryE where
  key : Nat
  depth : Int
  score : Int
  move : Nat
  flag : TTFlag
deriving DecidableEq, Repr

/-- TABLE_SIZE of the MPI variant TranspositionTable: 1 << 20 slots. -/
def TABLE_SIZE : Nat := 2 ^ 20

/-- TranspositionTable::store of the MPI variant (lines 40-52): write the
slot at hash mod TABLE_SIZE when the stored key differs or the stored
depth does not exceed the incoming depth. -/
def ttStore (t : Nat → TTEntryE) (hash : Nat) (depth : Int) (score : Int)
    (move : Nat) (flag : TTFlag) : Nat → TTEntryE :=
  let index := hash % TABLE_SIZE
  let e := t index
  if e.key ≠ hash ∨ depth ≥ e.depth then
    fun i => if i = index then ⟨hash, depth, score, move, flag⟩ else t i
  else t

/-- TranspositionTable::probe of the MPI variant (lines 54-58): return the
slot at hash mod TABLE_SIZE only when its key matches. -/
def ttProbe (t : Nat → TTEntryE) (hash : Nat) : Option TTEntryE :=
  let e := t (hash % TABLE_SIZE)
  if e.key = hash then some e else none

/-- The mate-score readjustment the MPI variant applies to a probed score
(part of search_impl, lines 216-220). -/
def mateAdjustRead (s : Int) (ply : Nat) : Int :=
  if s ≥ MAX_MATE_SCORE then s - (ply : Int)
  else if s ≤ -MAX_MATE_SCORE then s + (ply : Int) else s

/-- The TT cutoff decision of the MPI variant search_impl (lines 211-232):
on a probe hit with stored depth at least the remaining depth and a
permitting bound, return the mate-adjusted stored score together with the
stored move as a one-move PV (empty when the stored move value is 0).
Note: this variant performs no PV-node check. -/
def mpiProbeCut (entry : Option TTEntryE) (alpha beta depth : Int)
    (ply : Nat) : Option (Int × List Nat) :=
  match entry with
  | none => none
  | some e =>
    if e.depth ≥ depth then
      let ts := mateAdjustRead e.score ply
      if e.flag = TTFlag.EXACT ∨ (e.flag = TTFlag.LOWER ∧ ts ≥ beta) ∨
          (e.flag = TTFlag.UPPER ∧ ts ≤ alpha) then
        some (ts, if e.move ≠ 0 then [e.move] else [])
      else none
    else none

/-- The TT cutoff decision of the shared-hash-table variant search_impl
(search-sht.cpp lines 136-149, and identically the hybrid part of
search-rs.cpp lines 438-451): key check, then cutoff only at a non-PV node
(alpha = beta - 1) when the stored depth suffices and the bound permits;
the raw stored score is returned with an empty PV. -/
def shtProbeCut (e : TTEntryE) (hash : Nat) (alpha beta depth : Int) :
    Option Int :=
  if e.key = hash then
    if (¬ (alpha ≠ beta - 1)) ∧ e.depth ≥ depth then
      if e.flag = TTFlag.EXACT ∨ (e.flag = TTFlag.LOWER ∧ e.score ≥ beta) ∨
          (e.flag = TTFlag.UPPER ∧ e.score ≤ alpha) then
        some e.score
      else none
    else none
  else none

/-- The TT move retained for move ordering by the shared-hash-table
variant: set exactly when the probed key matches (search-sht.cpp lines
137-139). -/
def shtProbeMove (e : TTEntryE) (hash : Nat) : Option Nat :=
  if e.key = hash then some e.move else none

/-- The code the MPI variant search_impl runs after its move loop (lines
328-339): flag UPPER_BOUND when best_score <= alpha (the updated alpha)
and EXACT otherwise, then, when a best move exists, store the
mate-adjusted best score; finally return the best score and the PV. -/
def mpiFinish (t : Nat → TTEntryE) (hash : Nat) (depth : Int) (ply : Nat)
    (alpha best : Int) (bestMove : Nat) (pv : List Mv) :
    SearchResultE × (Nat → TTEntryE) :=
  let flag := if best ≤ alpha then TTFlag.UPPER else TTFlag.EXACT
  let t1 :=
    if bestMove ≠ 0 then
      let s := if best ≥ MAX_MATE_SCORE then best + (ply : Int)
               else if best ≤ -MAX_MATE_SCORE then best - (ply : Int) else best
      ttStore t hash depth s bestMove flag
    else t
  (⟨best, some pv⟩, t1)

/-- The PVS window sequence the MPI variant runs for one move (lines
284-297): first or scout window at the possibly LMR-reduced depth, a
scout re-search at full depth when LMR reduced and the score beat alpha,
and a full-window re-search when the score still beats alpha; the table
is threaded through each call. -/
def mpiPVS {Pos : Type}
    (rec : (Nat → TTEntryE) → Pos → Int → Int → Int → SearchResultE × (Nat → TTEntryE))
    (t : Nat → TTEntryE) (child : Pos) (alpha beta depth newDepth : Int)
    (n : Nat) : SearchResultE × (Nat → TTEntryE) :=
  let o1 := if n = 1 then rec t child (-beta) (-alpha) newDepth
            else rec t child (-alpha - 1) (-alpha) newDepth
  let s1 := (negR o1.1, o1.2)
  let s2 := if n ≠ 1 ∧ s1.1.score > alpha ∧ newDepth < depth - 1 then
              let o2 := rec s1.2 child (-alpha - 1) (-alpha) (depth - 1)
              (negR o2.1, o2.2)
            else s1
  if n ≠ 1 ∧ s1.1.score > alpha ∧ s2.1.score > alpha then
    let o3 := rec s2.2 child (-beta) (-alpha) (depth - 1)
    (negR o3.1, o3.2)
  else s2

/-- The move loop of the MPI variant search_impl (lines 266-326): per move
the LMR depth choice, the PVS window sequence, the stop check,
best/alpha/PV updates, and at a beta cutoff an immediate LOWER_BOUND
store followed by the break; the loop ends in `mpiFinish` (the post-loop
store).  The recursive search `rec` threads the table. -/
def mpiLoop {Pos : Type} (g : GameOps Pos) (pos : Pos)
    (rec : (Nat → TTEntryE) → Pos → Int → Int → Int → SearchResultE × (Nat → TTEntryE))
    (hash : Nat) (depth beta : Int) (ply : Nat) (stop : Bool) (pvNode : Bool) :
    (Nat → TTEntryE) → List Mv → Nat → Int → Int → Nat → List Mv →
    SearchResultE × (Nat → TTEntryE)
  | t, [], _, alpha, best, bestMove, pv => mpiFinish t hash depth ply alpha best bestMove pv
  | t, m :: rest, n, alpha, best, bestMove, pv =>
    let toPt := g.pieceTypeOn pos m.toSq
    let child := g.makeMove pos m
    let newDepth :=
      if 3 < n ∧ 2 < depth ∧ g.inCheck child = false ∧ toPt = none ∧
          m.mtype ≠ MvType.promotion then
        max 1 (depth - 2)
      else depth - 1
    let s3 := mpiPVS rec t child alpha beta depth newDepth n
    let r := s3.1
    let t3 := s3.2
    if ply ≠ 0 ∧ stop then (⟨0, none⟩, t3)
    else if r.score > best then
      if r.score > alpha then
        let pv1 := if pvNode then m :: r.pv.getD [] else pv
        if r.score ≥ beta then
          let t4 := ttStore t3 hash depth r.score m.value TTFlag.LOWER
          mpiFinish t4 hash depth ply r.score r.score m.value pv1
        else
          mpiLoop g pos rec hash depth beta ply stop pvNode t3 rest (n + 1)
            r.score r.score m.value pv1
      else
        mpiLoop g pos rec hash depth beta ply stop pvNode t3 rest (n + 1)
          alpha r.score m.value pv
    else
      mpiLoop g pos rec hash depth beta ply stop pvNode t3 rest (n + 1)
        alpha best bestMove pv

/-- search_impl of the MPI variant (src/unnamed/part_000 lines 180-342):
quiescence at depth <= 0; at ply > 0 the stop, fifty-move, repetition and
MAX_PLY guards and mate-distance pruning; the TT probe with its cutoff
(not gated on PV-ness in this variant); the empty-move-list mate or
stalemate return; null-move pruning; sorting with the TT move; and the
PVS loop with LMR and the two TT stores.  The table is threaded through
the recursion in program order. -/
def mpiSearchImpl {Pos : Type} (g : GameOps Pos) :
    Nat → (Nat → TTEntryE) → Pos → Int → Int → Int → Nat → Bool →
    SearchResultE × (Nat → TTEntryE)
  | 0, t, _, _, _, _, _, _ => (⟨0, none⟩, t)
  | fuel + 1, t, pos, alpha, beta, depth, ply, stop =>
    if depth ≤ 0 then (⟨qsearchImpl g (fuel + 1) pos alpha beta ply stop, none⟩, t)
    else if ply ≠ 0 ∧ stop then (⟨0, none⟩, t)
    else if ply ≠ 0 ∧ (100 ≤ g.halfmoves pos ∨ g.isRepeat pos = true) then (⟨0, none⟩, t)
    else if ply ≠ 0 ∧ MAX_PLY ≤ ply then (⟨g.evaluate pos, none⟩, t)
    else
      let alpha1 := if ply ≠ 0 then max (-MATE_SCORE + (ply : Int)) alpha else alpha
      let beta1 := if ply ≠ 0 then min (MATE_SCORE - (ply : Int)) beta else beta
      if ply ≠ 0 ∧ alpha1 ≥ beta1 then (⟨alpha1, none⟩, t)
      else
        let pvNode := decide (alpha1 ≠ beta1 - 1)
        let hash := g.hash pos
        let probed := ttProbe t hash
        match mpiProbeCut probed alpha1 beta1 depth ply with
        | some (s, pvVals) => (⟨s, some (pvVals.map g.moveOfValue)⟩, t)
        | none =>
          let ttMoveVal := match probed with
            | some e => if e.move ≠ 0 then e.move else 0
            | none => 0
          let moveList := g.legalMoves pos
          if moveList.isEmpty then
            (⟨if g.inCheck pos then -MATE_SCORE + (ply : Int) else 0, none⟩, t)
          else
            let nullStep :=
              if pvNode = false ∧ g.inCheck pos = false ∧ depth ≥ 3 ∧ 0 < ply then
                if g.evaluate pos ≥ beta1 then
                  let o :=
                    mpiSearchImpl g fuel t (g.makeNullMove pos) (-beta1)
                      (-beta1 + 1) (depth - 3 - 1) (ply + 1) stop
                  (decide ((negR o.1).score ≥ beta1), o.2)
                else (false, t)
              else (false, t)
            if nullStep.1 then (⟨beta1, none⟩, nullStep.2)
            else
              let sorted := sortMoves g pos (some (g.moveOfValue ttMoveVal)) moveList
              mpiLoop g pos
                (fun tb p a b nd => mpiSearchImpl g fuel tb p a b nd (ply + 1) stop)
                hash depth beta1 ply stop pvNode nullStep.2 sorted 1 alpha1
                (-INFINITE) 0 []

/-- The state of the shared best_score/alpha/pv triple of the
shared-hash-table move loop, plus the shared cutoff flag. -/
structure ShtState where
  best : Int
  alpha : Int
  pv : List Mv
  cutoff : Bool
deriving DecidableEq, Repr

/-- One execution of the critical section of the shared-hash-table
parallel move loop (search-sht.cpp lines 181-199), applied to the result
of one move: skip when a cutoff was observed, otherwise update best,
alpha and (at a PV node) the PV, and raise the cutoff flag on
alpha >= beta.  An item carries the move, its returned score and its
child PV.  The OpenMP schedule is nondeterministic; the fold below takes
the items in the order in which the critical sections executed. -/
def shtCritStep (pvNode : Bool) (beta : Int) (st : ShtState)
    (item : Mv × Int × List Mv) : ShtState :=
  if st.cutoff then st
  else
    let m := item.1
    let score := item.2.1
    let childPv := item.2.2
    if score > st.best then
      if score > st.alpha then
        let alpha := score
        let pv := if pvNode then m :: childPv else st.pv
        ⟨score, alpha, pv, alpha ≥ beta⟩
      else ⟨score, st.alpha, st.pv, st.cutoff⟩
    else st

/-- The shared state after the whole shared-hash-table move loop, started
from best_score = -INFINITE and the incoming alpha (search-sht.cpp lines
152-201). -/
def shtLoopRun (pvNode : Bool) (beta alpha0 : Int)
    (items : List (Mv × Int × List Mv)) : ShtState :=
  items.foldl (shtCritStep pvNode beta) ⟨-INFINITE, alpha0, [], false⟩

/-- The flag computation of the shared-hash-table TT write (search-sht.cpp
lines 203-204): LOWER on best_score >= beta, UPPER on best_score < alpha
(the updated alpha), EXACT otherwise. -/
def shtTTFlagOf (best alphaEnd beta : Int) : TTFlag :=
  if best ≥ beta then TTFlag.LOWER
  else if best < alphaEnd then TTFlag.UPPER
  else TTFlag.EXACT

/-- The entry the shared-hash-table variant passes to tt.write after its
move loop (search-sht.cpp line 205): the move field is the probed TT move
value (0 when there was none), never the best move of this node. -/
def shtWriteArgs (ttMove : Option Nat) (depth : Int) (hash : Nat)
    (pvNode : Bool) (beta alpha0 : Int) (items : List (Mv × Int × List Mv)) :
    TTEntryE :=
  let st := shtLoopRun pvNode beta alpha0 items
  ⟨hash, depth, st.best, ttMove.getD 0, shtTTFlagOf st.best st.alpha beta⟩

/-- The SearchGlobals state visible to the iterative-deepening driver: the
stop flag and the node counter. -/
structure SGE where
  stop : Bool
  nodes : Nat
deriving DecidableEq, Repr

/-- The iterative-deepening loop of best_move_search of the
shared-hash-table variant (search-sht.cpp lines 266-311): run the search
for the current depth, return the recorded best move when depth > 1 and
the stop flag is set, otherwise take the head of a non-empty PV as the
new best move and continue.  `searchFn` is the per-depth search, which
receives and returns the SearchGlobals state. -/
def bmsLoop (searchFn : Nat → SGE → SearchResultE × SGE) :
    Nat → Nat → SGE → Option Mv → Option Mv
  | _, 0, _, best => best
  | d, r + 1, sg, best =>
    let out := searchFn d sg
    if 1 < d ∧ out.2.stop then best
    else
      let best1 := match out.1.pv with
        | some (m :: _) => some m
        | _ => best
      bmsLoop searchFn (d + 1) r out.2 best1

/-- best_move_search of the shared-hash-table variant (search-sht.cpp
lines 254-314): clear the TT (not modelled here), clear the stop flag,
reset the node counter, then iterate depths 1..maxDepth.  The incoming
SearchGlobals state is overwritten before the first iteration. -/
def bestMoveSearchSht (searchFn : Nat → SGE → SearchResultE × SGE)
    (sg : SGE) (maxDepth : Nat) : Option Mv :=
  bmsLoop searchFn 1 maxDepth { sg with stop := false, nodes := 0 } none

/-- A message the MPI master sends to a worker: the terminate signal
(length prefix -1), the no-work signal (length prefix 0), or a work item
(the FEN of the child position and the search depth). -/
inductive MpiMsg where
  | terminate
  | noWork
  | work (fenStr : String) (depth : Int)
deriving DecidableEq, Repr

/-- One dispatch decision of the MPI master (part_000 lines 393-413 and
468-486): when moves remain, send the child FEN and the depth and consume
the move; otherwise send the no-work signal. -/
def sendNextMsg {Pos : Type} (g : GameOps Pos) (pos : Pos) (depth : Int) :
    List Mv → MpiMsg × List Mv
  | [] => (MpiMsg.noWork, [])
  | m :: rest => (MpiMsg.work (g.fen (g.makeMove pos m)) depth, rest)

/-- The messages of the initial dispatch round of the MPI master (part_000
lines 392-414): one message per worker, a work item while moves remain
and the no-work signal afterwards; also returns the remaining moves. -/
def initialSends {Pos : Type} (g : GameOps Pos) (pos : Pos) (depth : Int) :
    Nat → List Mv → List MpiMsg × List Mv
  | 0, rem => ([], rem)
  | w + 1, rem =>
    let first := sendNextMsg g pos depth rem
    let rest := initialSends g pos depth w first.2
    (first.1 :: rest.1, rest.2)

/-- The messages of the collect loop of the MPI master (part_000 lines
417-487): one completion per dispatched move, each answered with the next
work item while moves remain and with the no-work signal afterwards. -/
def collectMsgs {Pos : Type} (g : GameOps Pos) (pos : Pos) (depth : Int) :
    Nat → List Mv → List MpiMsg
  | 0, _ => []
  | k + 1, rem =>
    let step := sendNextMsg g pos depth rem
    step.1 :: collectMsgs g pos depth k step.2

/-- The full message trace of one per-depth round of the MPI master
search (part_000 lines 363-490): on an empty root move list a terminate
signal is broadcast to every worker (lines 368-376); otherwise the sorted
moves are dispatched and collected, and no terminate signal is sent. -/
def masterRoundMsgs {Pos : Type} (g : GameOps Pos) (pos : Pos) (depth : Int)
    (numWorkers : Nat) : List MpiMsg :=
  let moves := sortMoves g pos none (g.legalMoves pos)
  if moves.isEmpty then List.replicate numWorkers MpiMsg.terminate
  else
    let ini := initialSends g pos depth numWorkers moves
    ini.1 ++ collectMsgs g pos depth moves.length ini.2

/-- The message trace of best_move_search of the MPI variant (part_000
lines 602-676) for a run in which every depth iteration completes: the
per-depth round traces for depths 1..maxDepth followed by the terminate
broadcast that the driver performs after the iterative-deepening loop
(lines 665-669). -/
def bmsMpiMsgs {Pos : Type} (g : GameOps Pos) (pos : Pos) (maxDepth : Nat)
    (numWorkers : Nat) : List MpiMsg :=
  List.flatten ((List.range maxDepth).map
      (fun i => masterRoundMsgs g pos ((i : Int) + 1) numWorkers)) ++
    List.replicate numWorkers MpiMsg.terminate

/-- The reply a worker sends back for one work item (part_000 lines
716-731): score, node-count delta, and the PV move values (whose count is
the transmitted pv_length). -/
structure Reply where
  score : Int
  nodes : Nat
  pvVals : List Nat
deriving DecidableEq, Repr

/-- The work item the master sends for one root move (part_000 lines
394-403): the FEN of the position after the move, and the depth. -/
def masterSendItem {Pos : Type} (g : GameOps Pos) (pos : Pos) (m : Mv)
    (depth : Int) : String × Int :=
  (g.fen (g.makeMove pos m), depth)

/-- One iteration of mpi_worker_loop for a work item (part_000 lines
696-731): rebuild the position from the FEN, run the sequential search at
depth - 1 with the window [-INFINITE, +INFINITE], and reply with the
score, the node delta and the PV move values.  `searchFn` is the
sequential search the worker invokes (search_impl plus its node
counting), abstracted over so the protocol layer is stated for any
searcher. -/
def mpiWorkerStep {Pos : Type} (g : GameOps Pos)
    (searchFn : Pos → Int → Int → Int → SearchResultE × Nat)
    (fenStr : String) (depth : Int) : Reply :=
  let p := g.posOfFen fenStr
  let out := searchFn p (-INFINITE) INFINITE (depth - 1)
  ⟨out.1.score, out.2, (out.1.pv.getD []).map (fun m => m.value)⟩

/-- The per-move result the master assembles from a worker reply (part_000
lines 438-457): the negated score, and a PV of the dispatched root move
followed by the decoded reply moves (just the root move when pv_length
is 0). -/
def masterAssemble {Pos : Type} (g : GameOps Pos) (m : Mv) (rep : Reply) :
    SearchResultE :=
  ⟨-rep.score, some (m :: rep.pvVals.map g.moveOfValue)⟩

/-- The best-result fold of the MPI master collect loop (part_000 lines
383 and 459-462): start from score -INFINITE with an absent PV and keep
the per-move result whenever its score is strictly larger. -/
def masterBestFold {Pos : Type} (g : GameOps Pos)
    (items : List (Mv × Reply)) : SearchResultE :=
  items.foldl
    (fun best it =>
      let wr := masterAssemble g it.1 it.2
      if wr.score > best.score then wr else best)
    ⟨-INFINITE, none⟩

/-- A one-position game with no moves and a constant evaluation; the
counterexamples and witnesses instantiate the abstract interface with it
(it stands for a concrete quiet position of the given evaluation). -/
def unitGame (ev : Int) : GameOps Unit where
  evaluate _ := ev
  inCheck _ := false
  legalMoves _ := []
  checkEvasions _ := []
  captureMoves _ := []
  promotions _ := []
  isLegalGenerated _ _ := false
  makeMove p _ := p
  makeNullMove p := p
  halfmoves _ := 0
  isRepeat _ := false
  pieceTypeOn _ _ := none
  material _ := 100
  hash _ := 0
  fen _ := ""
  posOfFen _ := ()
  moveOfValue v := ⟨v, 0, 0, MvType.normal⟩

/-- A variant of `unitGame` with a single legal root move. -/
def oneMoveGame : GameOps Unit :=
  { unitGame 0 with legalMoves := fun _ => [⟨9, 0, 0, MvType.normal⟩] }

/-- A constant per-depth search used by driver witnesses: it always
returns the given PV and leaves the SearchGlobals state unchanged. -/
def constSearchFn (score : Int) (pv : Option (List Mv)) :
    Nat → SGE → SearchResultE × SGE :=
  fun _ sg => (⟨score, pv⟩, sg)

/-- A game with two piece types on squares 0 and 1, used by witnesses that
need an occupied from-square (it stands for a position with a pawn
attacking a heavier piece). -/
def pieceGame : GameOps Unit :=
  { unitGame 0 with
    pieceTypeOn := fun _ sq => if sq < 2 then some sq else none
    material := fun i => if i = 0 then 100 else 300 }

theorem insertDesc_perm (key : Mv → Int) (m : Mv) :
    ∀ l : List Mv, (insertDesc key m l).Perm (m :: l) := by
  intro l
  induction l with
  | nil => simp [insertDesc]
  | cons x xs ih =>
    simp only [insertDesc]
    split
    · exact List.Perm.refl _
    · exact (ih.cons x).trans (List.Perm.swap m x xs)

theorem sortMoves_aux_perm (key : Mv → Int) :
    ∀ (l acc : List Mv),
      (l.foldl (fun acc m => insertDesc key m acc) acc).Perm (l ++ acc) := by
  intro l
  induction l with
  | nil => intro acc; simp
  | cons m rest ih =>
    intro acc
    have h1 := ih (insertDesc key m acc)
    have h2 : (rest ++ insertDesc key m acc).Perm (rest ++ m :: acc) :=
      List.Perm.append_left rest (insertDesc_perm key m acc)
    have h3 : (rest ++ m :: acc).Perm (m :: (rest ++ acc)) := List.perm_middle
    simpa using (h1.trans h2).trans h3

theorem sortMoves_perm {Pos : Type} (g : GameOps Pos) (pos : Pos)
    (ttMove : Option Mv) (l : List Mv) : (sortMoves g pos ttMove l).Perm l := by
  simpa using sortMoves_aux_perm (sortKey g pos ttMove) l []

theorem mem_insertDesc (key : Mv → Int) (m x : Mv) (l : List Mv) :
    x ∈ insertDesc key m l ↔ x = m ∨ x ∈ l := by
  rw [(insertDesc_perm key m l).mem_iff]
  simp

theorem insertDesc_pairwise (key : Mv → Int) (m : Mv) :
    ∀ l : List Mv, l.Pairwise (fun a b => key b ≤ key a) →
      (insertDesc key m l).Pairwise (fun a b => key b ≤ key a) := by
  intro l
  induction l with
  | nil => intro _; simp [insertDesc]
  | cons x xs ih =>
    intro h
    rw [List.pairwise_cons] at h
    obtain ⟨hx, hxs⟩ := h
    simp only [insertDesc]
    split
    · rename_i hgt
      refine List.pairwise_cons.2 ⟨?_, List.pairwise_cons.2 ⟨hx, hxs⟩⟩
      intro y hy
      rcases List.mem_cons.1 hy with hy | hy
      · subst hy; exact le_of_lt hgt
      · exact le_trans (hx y hy) (le_of_lt hgt)
    · rename_i hle
      refine List.pairwise_cons.2 ⟨?_, ih hxs⟩
      intro y hy
      rcases (mem_insertDesc key m y xs).1 hy with hy | hy
      · subst hy; exact not_lt.1 hle
      · exact hx y hy

theorem sortMoves_aux_pairwise (key : Mv → Int) :
    ∀ (l acc : List Mv), acc.Pairwise (fun a b => key b ≤ key a) →
      (l.foldl (fun acc m => insertDesc key m acc) acc).Pairwise
        (fun a b => key b ≤ key a) := by
  intro l
  induction l with
  | nil => intro acc h; exact h
  | cons m rest ih =>
    intro acc h
    exact ih (insertDesc key m acc) (insertDesc_pairwise key m acc h)

/-- C7: the move-ordering key gives 20000 to the TT move, the en-passant
bonus to en passant, 10000 plus the capture value to a good capture, 5000
plus the capture value to any other capture and 0 to a quiet move (case
order as in the code: the TT-move and en-passant checks take precedence),
and sort_moves orders the list by decreasing key (a stable sort of a
permutation of the input).  MoveList::sort itself is a libchess
primitive; it is modelled per the spec as a stable decreasing-key sort. -/
theorem sort_moves_key_and_order {Pos : Type} (g : GameOps Pos) (pos : Pos)
    (ttMove : Option Mv) (moves : List Mv) :
    (∀ (m : Mv) (apt : Nat), g.pieceTypeOn pos m.fromSq = some apt →
      sortKey g pos ttMove m =
        (if ttMove = some m then 20000
         else if m.mtype = MvType.enpassant then 10000 + g.material PAWN + 20
         else
           match g.pieceTypeOn pos m.toSq with
           | some victim =>
               if g.material victim - g.material apt ≥ g.material PAWN - 50 then
                 10000 + (g.material victim - g.material apt)
               else 5000 + (g.material victim - g.material apt)
           | none => 0)) ∧
    (sortMoves g pos ttMove moves).Pairwise
      (fun a b => sortKey g pos ttMove b ≤ sortKey g pos ttMove a) ∧
    (sortMoves g pos ttMove moves).Perm moves := by
  refine ⟨?_, ?_, sortMoves_perm g pos ttMove moves⟩
  · intro m apt h
    simp only [sortKey, h, Option.getD_some]
  · exact sortMoves_aux_pairwise (sortKey g pos ttMove) moves [] (by simp)

/-- Witness for C7 at a concrete capture move on the two-piece game: a
pawn (material 100) taking a piece of material 300 gets key 10200, and a
concrete two-move list is sorted in decreasing key order. -/
theorem sort_moves_key_and_order_witness :
    sortKey pieceGame () none ⟨4, 0, 1, MvType.normal⟩ = 10200 ∧
    (sortMoves pieceGame () none
        [⟨2, 5, 5, MvType.normal⟩, ⟨4, 0, 1, MvType.normal⟩]).Pairwise
      (fun a b => sortKey pieceGame () none b ≤ sortKey pieceGame () none a) := by
  constructor
  · have h := (sort_moves_key_and_order pieceGame () none []).1
      ⟨4, 0, 1, MvType.normal⟩ 0 (by decide)
    rw [h]; decide
  · exact (sort_moves_key_and_order pieceGame () none
      [⟨2, 5, 5, MvType.normal⟩, ⟨4, 0, 1, MvType.normal⟩]).2.1

theorem qLoop_ge {Pos : Type} (g : GameOps Pos)
    (rec : Pos → Int → Int → Nat → Int) (pos : Pos) (beta : Int) (ply : Nat) :
    ∀ (l : List Mv) (a b : Int), a ≤ qLoop g rec pos beta ply false l a b := by
  intro l
  induction l with
  | nil => intro a b; simp [qLoop]
  | cons m rest ih =>
    intro a b
    simp only [qLoop, Bool.false_eq_true, if_false]
    split
    · exact ih a b
    · split
      · split
        · split
          · rename_i h1 h2 _
            exact le_of_lt h2
          · rename_i h1 h2 _
            exact le_trans (le_of_lt h2) (ih _ _)
        · exact ih a _
      · exact ih a b

theorem qLoop_skip {Pos : Type} (g : GameOps Pos)
    (rec : Pos → Int → Int → Nat → Int) (pos : Pos) (beta : Int) (ply : Nat)
    (stop : Bool) :
    ∀ (l : List Mv) (a b : Int),
      (∀ m ∈ l, g.isLegalGenerated pos m = false) →
      qLoop g rec pos beta ply stop l a b = a := by
  intro l
  induction l with
  | nil => intro a b _; simp [qLoop]
  | cons m rest ih =>
    intro a b h
    have hm : g.isLegalGenerated pos m = false := h m (List.mem_cons_self m rest)
    simp only [qLoop, hm, if_true]
    exact ih a b fun x hx => h x (List.mem_cons_of_mem m hx)

/-- C4 (amended): quiescence never returns less than the static
evaluation, provided additionally that the evaluation does not exceed
beta and the stop flag is clear: the fail-hard stand-pat returns exactly
beta when the evaluation reaches it (search-rs.cpp lines 65-71), so an
evaluation above beta is cut down to beta and the bound as originally
claimed fails there (see the counterexample). -/
theorem qsearch_standpat_floor {Pos : Type} (g : GameOps Pos) (f : Nat)
    (pos : Pos) (alpha beta : Int) (ply : Nat)
    (hchk : g.inCheck pos = false) (ha : alpha ≤ g.evaluate pos)
    (hab : alpha < beta) (hb : g.evaluate pos ≤ beta) :
    g.evaluate pos ≤ qsearchImpl g (f + 1) pos alpha beta ply false := by
  simp only [qsearchImpl, Bool.false_eq_true, if_false, hchk]
  split
  · exact le_refl _
  · split
    · exact hb
    · refine le_trans ?_ (qLoop_ge g _ pos beta ply (sortMoves g pos none _) _ _)
      split <;> omega

/-- C4 counterexample: on a quiet position of evaluation 100 with the
window [0, 50) the conditions of the claim hold (not in check, alpha at
most the evaluation, alpha < beta), yet qsearch returns beta = 50, which
is less than the evaluation. -/
theorem qsearch_standpat_floor_counterexample :
    qsearchImpl (unitGame 100) 1 () 0 50 0 false = 50 ∧
    (unitGame 100).inCheck () = false ∧
    (0 : Int) ≤ (unitGame 100).evaluate () ∧ (0 : Int) < 50 ∧
    ¬ ((unitGame 100).evaluate () ≤ qsearchImpl (unitGame 100) 1 () 0 50 0 false) := by
  decide

/-- Witness for C4 (amended) on a quiet position of evaluation 50 inside
the window [0, 100). -/
theorem qsearch_standpat_floor_witness :
    (unitGame 50).evaluate () ≤ qsearchImpl (unitGame 50) 1 () 0 100 0 false :=
  qsearch_standpat_floor (unitGame 50) 0 () 0 100 0 rfl (by decide) (by decide)
    (by decide)

/-- C9: at a node that is not in check, with a valid window, a clear stop
flag, a ply below MAX_PLY, and a generated capture-and-promotion list
that is empty or entirely illegal, quiescence returns beta when the
static evaluation reaches beta and max(alpha, evaluation) otherwise
(search-rs.cpp lines 54-112: the loop skips every illegal move and the
function returns the stand-pat alpha). -/
theorem qsearch_no_tactical_result {Pos : Type} (g : GameOps Pos) (f : Nat)
    (pos : Pos) (alpha beta : Int) (ply : Nat)
    (hchk : g.inCheck pos = false) (hab : alpha < beta) (hply : ply < MAX_PLY)
    (hmv : ∀ m ∈ g.captureMoves pos ++ g.promotions pos,
        g.isLegalGenerated pos m = false) :
    qsearchImpl g (f + 1) pos alpha beta ply false =
      if g.evaluate pos ≥ beta then beta else max alpha (g.evaluate pos) := by
  simp only [qsearchImpl, Bool.false_eq_true, if_false, hchk]
  rw [if_neg (by omega)]
  split
  · rfl
  · rw [qLoop_skip]
    · split <;> omega
    · intro m hm
      exact hmv m ((sortMoves_perm g pos none _).mem_iff.1 hm)

/-- Witness for C9 on a quiet position of evaluation 30 with the window
[10, 20): the evaluation reaches beta, so quiescence returns beta. -/
theorem qsearch_no_tactical_result_witness :
    qsearchImpl (unitGame 30) 1 () 10 20 0 false = 20 :=
  (qsearch_no_tactical_result (unitGame 30) 0 () 10 20 0 rfl (by decide)
      (by decide) (by simp [unitGame])).trans (by decide)

/-- C8: a full-width node (depth >= 1) whose legal move list is empty
returns -MATE_SCORE + ply with an empty PV when in check and 0 with an
empty PV otherwise (search-rs.cpp lines 147-151).  At ply > 0 the node
must first pass the guards that precede move generation: a clear stop
flag, fifty-move counter below 100, no repetition, ply below MAX_PLY and
a window still open after mate-distance pruning (spec 4.2, phases 2-6). -/
theorem search_no_legal_moves {Pos : Type} (g : GameOps Pos) (f : Nat)
    (pos : Pos) (alpha beta depth : Int) (ply : Nat) (stop : Bool)
    (hd : 1 ≤ depth) (hml : g.legalMoves pos = [])
    (hply : ply ≠ 0 → stop = false ∧ g.halfmoves pos < 100 ∧
        g.isRepeat pos = false ∧ ply < MAX_PLY ∧
        max (-MATE_SCORE + (ply : Int)) alpha <
          min (MATE_SCORE - (ply : Int)) beta) :
    searchImplRs g (f + 1) pos alpha beta depth ply stop =
      ⟨if g.inCheck pos then -MATE_SCORE + (ply : Int) else 0, none⟩ := by
  by_cases hp : ply = 0
  · subst hp
    simp only [searchImplRs, hml]
    rw [if_neg (by omega)]
    simp
  · obtain ⟨hs, h50, hrep, hmx, hw⟩ := hply hp
    subst hs
    simp only [searchImplRs, hml]
    rw [if_neg (by omega)]
    rw [if_neg (by simp)]
    rw [if_neg (by simp [hrep]; omega)]
    rw [if_neg (by simp; omega)]
    rw [if_pos hp, if_pos hp]
    rw [if_neg (by simp; omega)]
    simp

/-- Witness for C8: the no-move quiet position (the stalemate scenario of
spec section 8, item 5) searched at depth 1 from the root returns score 0
with an empty PV. -/
theorem search_no_legal_moves_witness :
    searchImplRs (unitGame 0) 1 () (-31000) 31000 1 0 false = ⟨0, none⟩ :=
  (search_no_legal_moves (unitGame 0) 0 () (-31000) 31000 1 0 false
      (by decide) rfl (by intro h; exact absurd rfl h)).trans (by decide)

theorem bmsLoop_isSome (searchFn : Nat → SGE → SearchResultE × SGE) :
    ∀ (r d : Nat) (sg : SGE) (m : Mv),
      (bmsLoop searchFn d r sg (some m)).isSome := by
  intro r
  induction r with
  | zero => intro d sg m; simp [bmsLoop]
  | succ k ih =>
    intro d sg m
    simp only [bmsLoop]
    split
    · simp
    · rcases h : (searchFn d sg).1.pv with _ | pv
      · simpa [h] using ih (d + 1) (searchFn d sg).2 m
      · rcases pv with _ | ⟨x, tl⟩
        · simpa [h] using ih (d + 1) (searchFn d sg).2 m
        · simpa [h] using ih (d + 1) (searchFn d sg).2 x

/-- C3 (amended): best_move_search clears the stop flag (and the node
counter) at entry (search-rs.cpp line 243, search-sht.cpp lines 259-261),
so a stop flag that is already set when it is called has no effect: the
result is independent of the incoming SearchGlobals state, and whenever
the depth-1 search started on the cleared state yields a non-empty PV the
driver returns a move, not nullopt. -/
theorem best_move_search_ignores_preset_stop
    (searchFn : Nat → SGE → SearchResultE × SGE) (sg sg' : SGE)
    (maxDepth : Nat) (m : Mv) (tl : List Mv) (h1 : 1 ≤ maxDepth)
    (hpv : (searchFn 1 ⟨false, 0⟩).1.pv = some (m :: tl)) :
    bestMoveSearchSht searchFn sg maxDepth =
      bestMoveSearchSht searchFn sg' maxDepth ∧
    (bestMoveSearchSht searchFn sg maxDepth).isSome := by
  constructor
  · cases sg; cases sg'; rfl
  · obtain ⟨k, rfl⟩ : ∃ k, maxDepth = k + 1 := ⟨maxDepth - 1, by omega⟩
    cases sg
    show (bmsLoop searchFn 1 (k + 1) ⟨false, 0⟩ none).isSome
    simp only [bmsLoop]
    rw [if_neg (by simp)]
    rw [hpv]
    exact bmsLoop_isSome searchFn k 2 (searchFn 1 ⟨false, 0⟩).2 m

/-- C3 counterexample: with the stop flag set before the call, a
depth-1 search whose PV is a single move makes best_move_search return
that move, not nullopt; the flag set beforehand is simply cleared at
entry. -/
theorem best_move_search_preset_stop_counterexample :
    bestMoveSearchSht (constSearchFn 0 (some [⟨1, 0, 0, MvType.normal⟩]))
        ⟨true, 5⟩ 1 = some ⟨1, 0, 0, MvType.normal⟩ ∧
    bestMoveSearchSht (constSearchFn 0 (some [⟨1, 0, 0, MvType.normal⟩]))
        ⟨true, 5⟩ 1 ≠ none := by
  decide

/-- Witness for C3 (amended) on the constant searcher: the driver result
with the stop flag preset agrees with the result on a cleared state, and
is some move. -/
theorem best_move_search_ignores_preset_stop_witness :
    (bestMoveSearchSht (constSearchFn 7 (some [⟨2, 0, 0, MvType.normal⟩]))
        ⟨true, 9⟩ 2 =
      bestMoveSearchSht (constSearchFn 7 (some [⟨2, 0, 0, MvType.normal⟩]))
        ⟨false, 0⟩ 2) ∧
    (bestMoveSearchSht (constSearchFn 7 (some [⟨2, 0, 0, MvType.normal⟩]))
        ⟨true, 9⟩ 2).isSome :=
  best_move_search_ignores_preset_stop
    (constSearchFn 7 (some [⟨2, 0, 0, MvType.normal⟩])) ⟨true, 9⟩ ⟨false, 0⟩ 2
    ⟨2, 0, 0, MvType.normal⟩ [] (by decide) rfl

/-- C1 (amended): in the shared-hash-table variant (and the hybrid, whose
probe code is identical) a TT probe short-circuits the node exactly when
the stored key matches, the node is a non-PV node (alpha = beta - 1), the
stored depth is at least the remaining depth and the bound permits, and
it returns exactly the stored score; a PV node never cuts out.  In the
MPI root-splitting variant, however, the cutoff is not gated on PV-ness:
it fires at any node where the stored depth suffices and the bound
permits the mate-adjusted stored score, PV or not (see the
counterexample). -/
theorem tt_probe_pv_gating :
    (∀ (e : TTEntryE) (h : Nat) (alpha beta depth : Int),
      (shtProbeCut e h alpha beta depth).isSome ↔
        (e.key = h ∧ alpha = beta - 1 ∧ e.depth ≥ depth ∧
          (e.flag = TTFlag.EXACT ∨ (e.flag = TTFlag.LOWER ∧ e.score ≥ beta) ∨
            (e.flag = TTFlag.UPPER ∧ e.score ≤ alpha)))) ∧
    (∀ (e : TTEntryE) (h : Nat) (alpha beta depth : Int),
      alpha ≠ beta - 1 → shtProbeCut e h alpha beta depth = none) ∧
    (∀ (e : TTEntryE) (h : Nat) (alpha beta depth s : Int),
      shtProbeCut e h alpha beta depth = some s → s = e.score) ∧
    (∀ (e : TTEntryE) (alpha beta depth : Int) (ply : Nat),
      (mpiProbeCut (some e) alpha beta depth ply).isSome ↔
        (e.depth ≥ depth ∧
          (e.flag = TTFlag.EXACT ∨
            (e.flag = TTFlag.LOWER ∧ mateAdjustRead e.score ply ≥ beta) ∨
            (e.flag = TTFlag.UPPER ∧ mateAdjustRead e.score ply ≤ alpha)))) := by
  refine ⟨?_, ?_, ?_, ?_⟩
  · intro e h alpha beta depth
    simp only [shtProbeCut]
    split_ifs with h1 h2 h3 <;> simp_all
  · intro e h alpha beta depth hpv
    simp only [shtProbeCut]
    split_ifs with h1 h2 h3 <;> simp_all
  · intro e h alpha beta depth s
    simp only [shtProbeCut]
    split_ifs with h1 h2 h3 <;> simp_all
  · intro e alpha beta depth ply
    simp only [mpiProbeCut]
    split_ifs with h1 h2 <;> simp_all

/-- C1 counterexample: in the MPI variant, at the PV window [-10, 10)
(alpha is not beta - 1) with an EXACT entry of sufficient depth in the
table slot, search_impl returns the stored score 7 immediately from the
TT probe, and its PV is the decoded stored move list (empty here because
the stored move value is 0) - a PV node does cut out via the TT in this
variant. -/
theorem tt_probe_pv_gating_counterexample :
    ((-10 : Int) ≠ 10 - 1) ∧
    (mpiSearchImpl (unitGame 0) 1 (fun _ => ⟨0, 3, 7, 0, TTFlag.EXACT⟩) ()
        (-10) 10 2 0 false).1 = ⟨7, some []⟩ := by
  constructor
  · decide
  · rfl

/-- Witness for C1 (amended): at a PV window the shared-hash-table probe
does not cut even on a matching EXACT entry of sufficient depth, while
the MPI probe does fire on the same entry. -/
theorem tt_probe_pv_gating_witness :
    shtProbeCut ⟨5, 3, 7, 9, TTFlag.EXACT⟩ 5 0 10 2 = none ∧
    (mpiProbeCut (some ⟨5, 3, 7, 9, TTFlag.EXACT⟩) 0 10 2 1).isSome := by
  constructor
  · exact tt_probe_pv_gating.2.1 ⟨5, 3, 7, 9, TTFlag.EXACT⟩ 5 0 10 2 (by decide)
  · exact (tt_probe_pv_gating.2.2.2 ⟨5, 3, 7, 9, TTFlag.EXACT⟩ 0 10 2 1).2
      (by decide)

theorem shtLoopRun_alpha (pvNode : Bool) (beta alpha0 : Int) :
    ∀ (items : List (Mv × Int × List Mv)) (st : ShtState),
      st.alpha = max alpha0 st.best →
      (items.foldl (shtCritStep pvNode beta) st).alpha =
        max alpha0 (items.foldl (shtCritStep pvNode beta) st).best := by
  intro items
  induction items with
  | nil => intro st h; exact h
  | cons it rest ih =>
    intro st h
    refine ih _ ?_
    simp only [shtCritStep]
    split_ifs <;>
      first
        | exact h
        | (dsimp only
           rcases max_cases alpha0 st.best with ⟨e1, l1⟩ | ⟨e1, l1⟩ <;>
             rcases max_cases alpha0 it.2.1 with ⟨e2, l2⟩ | ⟨e2, l2⟩ <;> omega)

theorem ttStore_cases (t : Nat → TTEntryE) (h : Nat) (d s : Int) (mv : Nat)
    (fl : TTFlag) :
    (ttStore t h d s mv fl) (h % TABLE_SIZE) = ⟨h, d, s, mv, fl⟩ ∨
    (ttStore t h d s mv fl = t ∧ (t (h % TABLE_SIZE)).key = h ∧
      d < (t (h % TABLE_SIZE)).depth) := by
  simp only [ttStore]
  split_ifs with hc
  · left; simp
  · right
    push_neg at hc
    exact ⟨rfl, hc.1, by omega⟩

theorem mpiFinish_snd (t : Nat → TTEntryE) (h : Nat) (d : Int) (ply : Nat)
    (alpha best : Int) (mv : Nat) (pv : List Mv) (hb : best ≤ alpha)
    (hmv : mv ≠ 0) :
    (mpiFinish t h d ply alpha best mv pv).2 =
      ttStore t h d
        (if best ≥ MAX_MATE_SCORE then best + (ply : Int)
         else if best ≤ -MAX_MATE_SCORE then best - (ply : Int) else best)
        mv TTFlag.UPPER := by
  simp only [mpiFinish, if_pos hb, if_pos hmv]

theorem mpiPVS_snd {Pos : Type}
    (rec : (Nat → TTEntryE) → Pos → Int → Int → Int → SearchResultE × (Nat → TTEntryE))
    (hrec : ∀ tb p a b nd, (rec tb p a b nd).2 = tb) (t : Nat → TTEntryE)
    (child : Pos) (alpha beta depth newDepth : Int) (n : Nat) :
    (mpiPVS rec t child alpha beta depth newDepth n).2 = t := by
  simp only [mpiPVS]
  split_ifs <;> simp [hrec]

theorem mpiFinish_after_lower (t : Nat → TTEntryE) (h : Nat) (d : Int)
    (ply : Nat) (s : Int) (mv : Nat) (pv : List Mv) (hmv : mv ≠ 0) :
    (mpiFinish (ttStore t h d s mv TTFlag.LOWER) h d ply s s mv pv).2 = t ∨
    ((mpiFinish (ttStore t h d s mv TTFlag.LOWER) h d ply s s mv pv).2
        (h % TABLE_SIZE)).flag = TTFlag.UPPER := by
  rw [mpiFinish_snd _ _ _ _ _ _ _ _ (le_refl s) hmv]
  rcases ttStore_cases (ttStore t h d s mv TTFlag.LOWER) h d
      (if s ≥ MAX_MATE_SCORE then s + (ply : Int)
       else if s ≤ -MAX_MATE_SCORE then s - (ply : Int) else s) mv
      TTFlag.UPPER with hw | ⟨heq, hkey, hdep⟩
  · right; rw [hw]
  · rcases ttStore_cases t h d s mv TTFlag.LOWER with hw4 | ⟨heq4, _, _⟩
    · rw [hw4] at hdep; exact absurd hdep (by simp)
    · left; rw [heq, heq4]

theorem mpiLoop_upper {Pos : Type} (g : GameOps Pos) (pos : Pos)
    (rec : (Nat → TTEntryE) → Pos → Int → Int → Int → SearchResultE × (Nat → TTEntryE))
    (hash : Nat) (depth beta : Int) (ply : Nat) (stop : Bool) (pvNode : Bool)
    (hrec : ∀ tb p a b nd, (rec tb p a b nd).2 = tb) :
    ∀ (l : List Mv) (t : Nat → TTEntryE) (n : Nat) (alpha best : Int)
      (mv : Nat) (pv : List Mv), best ≤ alpha → (∀ m ∈ l, m.value ≠ 0) →
      ((mpiLoop g pos rec hash depth beta ply stop pvNode t l n alpha best mv pv).2
          = t ∨
        ((mpiLoop g pos rec hash depth beta ply stop pvNode t l n alpha best mv pv).2
            (hash % TABLE_SIZE)).flag = TTFlag.UPPER) := by
  intro l
  induction l with
  | nil =>
    intro t n alpha best mv pv hb _
    simp only [mpiLoop]
    by_cases hmv : mv ≠ 0
    · rw [mpiFinish_snd _ _ _ _ _ _ _ _ hb hmv]
      rcases ttStore_cases t hash depth
          (if best ≥ MAX_MATE_SCORE then best + (ply : Int)
           else if best ≤ -MAX_MATE_SCORE then best - (ply : Int) else best)
          mv TTFlag.UPPER with hw | ⟨heq, _, _⟩
      · right; rw [hw]
      · left; exact heq
    · left
      simp only [mpiFinish, if_neg hmv]
  | cons m rest ih =>
    intro t n alpha best mv pv hb hvals
    have hm : m.value ≠ 0 := hvals m (List.mem_cons_self m rest)
    have hrest : ∀ x ∈ rest, x.value ≠ 0 :=
      fun x hx => hvals x (List.mem_cons_of_mem m hx)
    simp only [mpiLoop, mpiPVS_snd rec hrec]
    split_ifs <;>
      first
        | exact Or.inl rfl
        | exact mpiFinish_after_lower t hash depth ply _ m.value _ hm
        | exact ih t (n + 1) _ _ m.value _ (le_refl _) hrest
        | exact ih t (n + 1) _ _ m.value _ (not_lt.1 (by assumption)) hrest
        | exact ih t (n + 1) _ _ mv _ hb hrest

/-- C2 (amended): the TT entry written after a full-width move loop does
not match the claim.  Shared-hash-table variant: the bound is LOWER when
best_score reaches beta and UPPER only when best_score is strictly below
the original alpha (best_score equal to the original alpha yields EXACT,
the comparison being made against the updated alpha, which always equals
max(original alpha, best_score)); the stored move is the TT-probe move (0
when absent), not the best move found by this node.  MPI variant: a beta
cutoff stores LOWER with the best move inside the loop, but the store
that runs when the loop finishes always carries bound UPPER (best_score
never exceeds the updated alpha) and, having equal depth and key,
overwrites that LOWER entry; so with a table-preserving child searcher
the node leaves the slot either untouched or holding an UPPER entry. -/
theorem tt_write_bound_and_move :
    (∀ (ttMove : Option Nat) (depth : Int) (hash : Nat) (pvNode : Bool)
        (beta alpha0 : Int) (items : List (Mv × Int × List Mv)),
        -INFINITE ≤ alpha0 →
        shtWriteArgs ttMove depth hash pvNode beta alpha0 items =
          ⟨hash, depth, (shtLoopRun pvNode beta alpha0 items).best,
            ttMove.getD 0,
            if (shtLoopRun pvNode beta alpha0 items).best ≥ beta then
              TTFlag.LOWER
            else if (shtLoopRun pvNode beta alpha0 items).best < alpha0 then
              TTFlag.UPPER
            else TTFlag.EXACT⟩) ∧
    (∀ (t : Nat → TTEntryE) (h : Nat) (d : Int) (ply : Nat)
        (alpha best : Int) (mv : Nat) (pv : List Mv), best ≤ alpha → mv ≠ 0 →
        (mpiFinish t h d ply alpha best mv pv).2 =
          ttStore t h d
            (if best ≥ MAX_MATE_SCORE then best + (ply : Int)
             else if best ≤ -MAX_MATE_SCORE then best - (ply : Int) else best)
            mv TTFlag.UPPER) ∧
    (∀ (Pos : Type) (g : GameOps Pos) (pos : Pos)
        (rec : (Nat → TTEntryE) → Pos → Int → Int → Int →
          SearchResultE × (Nat → TTEntryE))
        (hash : Nat) (depth beta : Int) (ply : Nat) (stop : Bool)
        (pvNode : Bool),
        (∀ tb p a b nd, (rec tb p a b nd).2 = tb) →
        ∀ (l : List Mv) (t : Nat → TTEntryE) (n : Nat) (alpha best : Int)
          (mv : Nat) (pv : List Mv), best ≤ alpha →
          (∀ m ∈ l, m.value ≠ 0) →
          ((mpiLoop g pos rec hash depth beta ply stop pvNode t l n alpha best
              mv pv).2 = t ∨
            ((mpiLoop g pos rec hash depth beta ply stop pvNode t l n alpha
                best mv pv).2 (hash % TABLE_SIZE)).flag = TTFlag.UPPER)) := by
  refine ⟨?_, ?_, ?_⟩
  · intro ttMove depth hash pvNode beta alpha0 items h
    have hinit : (⟨-INFINITE, alpha0, [], false⟩ : ShtState).alpha =
        max alpha0 (⟨-INFINITE, alpha0, [], false⟩ : ShtState).best := by
      dsimp only
      exact (max_eq_left h).symm
    have hinv := shtLoopRun_alpha pvNode beta alpha0 items _ hinit
    have hcond :
        ((items.foldl (shtCritStep pvNode beta)
            ⟨-INFINITE, alpha0, [], false⟩).best <
          (items.foldl (shtCritStep pvNode beta)
            ⟨-INFINITE, alpha0, [], false⟩).alpha) ↔
        ((items.foldl (shtCritStep pvNode beta)
            ⟨-INFINITE, alpha0, [], false⟩).best < alpha0) := by
      rw [hinv]
      constructor
      · intro hlt
        rcases lt_max_iff.1 hlt with hc | hc
        · exact hc
        · exact absurd hc (lt_irrefl _)
      · intro hlt
        exact lt_max_iff.2 (Or.inl hlt)
    simp only [shtWriteArgs, shtTTFlagOf, shtLoopRun]
    congr 1
    exact if_congr Iff.rfl rfl (if_congr hcond rfl rfl)
  · intro t h d ply alpha best mv pv hb hmv
    exact mpiFinish_snd t h d ply alpha best mv pv hb hmv
  · intro Pos g pos rec hash depth beta ply stop pvNode hrec l t n alpha best
      mv pv hb hvals
    exact mpiLoop_upper g pos rec hash depth beta ply stop pvNode hrec l t n
      alpha best mv pv hb hvals

/-- C2 counterexample: one move of value 7 scores exactly the original
alpha = 10 inside the window [10, 50) with a probed TT move of value 5.
Here best_score = 10 equals the original alpha, so the claim demands
bound UPPER and stored move 7 (the move that achieved best_score), but
the shared-hash-table variant writes bound EXACT and stores move 5 (the
probe move). -/
theorem tt_write_bound_and_move_counterexample :
    shtWriteArgs (some 5) 3 11 true 50 10 [(⟨7, 0, 0, MvType.normal⟩, 10, [])] =
      ⟨11, 3, 10, 5, TTFlag.EXACT⟩ ∧
    TTFlag.EXACT ≠ TTFlag.UPPER ∧ (5 : Nat) ≠ 7 := by
  decide

/-- Witness for C2 (amended): a beta-cutoff run writes a LOWER entry with
the probe move; a finishing MPI store with best_score at the updated
alpha leaves the slot holding an UPPER entry; and the MPI loop on an
empty move list leaves the table untouched or holding an UPPER entry. -/
theorem tt_write_bound_and_move_witness :
    shtWriteArgs (some 5) 3 11 true 50 10 [(⟨7, 0, 0, MvType.normal⟩, 60, [])] =
      ⟨11, 3, 60, 5, TTFlag.LOWER⟩ ∧
    (((mpiFinish (fun _ => ⟨0, -1, 0, 0, TTFlag.EXACT⟩) 11 3 0 20 20 9 []).2
        (11 % TABLE_SIZE)).flag = TTFlag.UPPER) ∧
    ((mpiLoop (unitGame 0) () (fun tb _ _ _ _ => (⟨0, none⟩, tb)) 11 3 50 0
        false true (fun _ => ⟨0, -1, 0, 0, TTFlag.EXACT⟩) [] 1 5 (-31000) 9
        []).2 = (fun _ => ⟨0, -1, 0, 0, TTFlag.EXACT⟩) ∨
      ((mpiLoop (unitGame 0) () (fun tb _ _ _ _ => (⟨0, none⟩, tb)) 11 3 50 0
          false true (fun _ => ⟨0, -1, 0, 0, TTFlag.EXACT⟩) [] 1 5 (-31000) 9
          []).2 (11 % TABLE_SIZE)).flag = TTFlag.UPPER) := by
  refine ⟨?_, ?_, ?_⟩
  · exact (tt_write_bound_and_move.1 (some 5) 3 11 true 50 10
      [(⟨7, 0, 0, MvType.normal⟩, 60, [])] (by decide)).trans (by decide)
  · rw [tt_write_bound_and_move.2.1 (fun _ => ⟨0, -1, 0, 0, TTFlag.EXACT⟩) 11 3
      0 20 20 9 [] (le_refl 20) (by decide)]
    decide
  · exact tt_write_bound_and_move.2.2 Unit (unitGame 0) ()
      (fun tb _ _ _ _ => (⟨0, none⟩, tb)) 11 3 50 0 false true
      (fun _ _ _ _ _ => rfl) [] (fun _ => ⟨0, -1, 0, 0, TTFlag.EXACT⟩) 1 5
      (-31000) 9 [] (by decide) (by simp)

/-- C5: composing one master dispatch with one worker iteration: the
worker rebuilds the child position from the transmitted FEN and runs the
sequential search at depth - 1 with the window [-INFINITE, +INFINITE];
its reply carries that search's score, node delta and PV move values, and
the master records the negated score and the PV formed by the root move
followed by the worker's PV.  FEN and 16-bit move encoding are libchess
primitives, assumed faithful by the two round-trip hypotheses; the
sequential searcher is abstracted as `searchFn` (the code instantiates it
with search_impl). -/
theorem mpi_worker_master_roundtrip {Pos : Type} (g : GameOps Pos)
    (searchFn : Pos → Int → Int → Int → SearchResultE × Nat) (pos : Pos)
    (m : Mv) (depth : Int)
    (hfen : g.posOfFen (g.fen (g.makeMove pos m)) = g.makeMove pos m)
    (hmv : ∀ x ∈ (searchFn (g.makeMove pos m) (-INFINITE) INFINITE
        (depth - 1)).1.pv.getD [], g.moveOfValue x.value = x) :
    mpiWorkerStep g searchFn (masterSendItem g pos m depth).1
        (masterSendItem g pos m depth).2 =
      ⟨(searchFn (g.makeMove pos m) (-INFINITE) INFINITE (depth - 1)).1.score,
        (searchFn (g.makeMove pos m) (-INFINITE) INFINITE (depth - 1)).2,
        ((searchFn (g.makeMove pos m) (-INFINITE) INFINITE
            (depth - 1)).1.pv.getD []).map (fun x => x.value)⟩ ∧
    masterAssemble g m
        (mpiWorkerStep g searchFn (masterSendItem g pos m depth).1
          (masterSendItem g pos m depth).2) =
      ⟨-(searchFn (g.makeMove pos m) (-INFINITE) INFINITE (depth - 1)).1.score,
        some (m :: (searchFn (g.makeMove pos m) (-INFINITE) INFINITE
          (depth - 1)).1.pv.getD [])⟩ := by
  have h1 : mpiWorkerStep g searchFn (masterSendItem g pos m depth).1
      (masterSendItem g pos m depth).2 =
      ⟨(searchFn (g.makeMove pos m) (-INFINITE) INFINITE (depth - 1)).1.score,
        (searchFn (g.makeMove pos m) (-INFINITE) INFINITE (depth - 1)).2,
        ((searchFn (g.makeMove pos m) (-INFINITE) INFINITE
            (depth - 1)).1.pv.getD []).map (fun x => x.value)⟩ := by
    simp only [mpiWorkerStep, masterSendItem, hfen]
  refine ⟨h1, ?_⟩
  rw [h1]
  simp only [masterAssemble, List.map_map]
  have h2 : ((searchFn (g.makeMove pos m) (-INFINITE) INFINITE
      (depth - 1)).1.pv.getD []).map (g.moveOfValue ∘ Mv.value) =
      (searchFn (g.makeMove pos m) (-INFINITE) INFINITE (depth - 1)).1.pv.getD [] := by
    refine (List.map_congr_left ?_).trans (List.map_id _)
    intro a ha
    exact hmv a ha
  rw [h2]

/-- Witness for C5 on the one-position game with a constant searcher
returning score 5 and a one-move PV: the master records score -5 and the
PV [root move, worker move]. -/
theorem mpi_worker_master_roundtrip_witness :
    masterAssemble (unitGame 0) ⟨9, 0, 0, MvType.normal⟩
        (mpiWorkerStep (unitGame 0)
          (fun _ _ _ _ => (⟨5, some [⟨3, 0, 0, MvType.normal⟩]⟩, 2))
          (masterSendItem (unitGame 0) () ⟨9, 0, 0, MvType.normal⟩ 4).1
          (masterSendItem (unitGame 0) () ⟨9, 0, 0, MvType.normal⟩ 4).2) =
      ⟨-5, some [⟨9, 0, 0, MvType.normal⟩, ⟨3, 0, 0, MvType.normal⟩]⟩ :=
  ((mpi_worker_master_roundtrip (unitGame 0)
      (fun _ _ _ _ => (⟨5, some [⟨3, 0, 0, MvType.normal⟩]⟩, 2)) ()
      ⟨9, 0, 0, MvType.normal⟩ 4 rfl (by decide)).2).trans (by decide)

theorem sendNextMsg_ne_terminate {Pos : Type} (g : GameOps Pos) (pos : Pos)
    (depth : Int) : ∀ rem : List Mv,
      (sendNextMsg g pos depth rem).1 ≠ MpiMsg.terminate := by
  intro rem
  cases rem <;> simp [sendNextMsg]

theorem initialSends_ne_terminate {Pos : Type} (g : GameOps Pos) (pos : Pos)
    (depth : Int) : ∀ (w : Nat) (rem : List Mv),
      MpiMsg.terminate ∉ (initialSends g pos depth w rem).1 := by
  intro w
  induction w with
  | zero => intro rem; simp [initialSends]
  | succ k ih =>
    intro rem
    simp only [initialSends, List.mem_cons]
    rintro (h | h)
    · exact sendNextMsg_ne_terminate g pos depth rem h.symm
    · exact ih _ h

theorem collectMsgs_ne_terminate {Pos : Type} (g : GameOps Pos) (pos : Pos)
    (depth : Int) : ∀ (k : Nat) (rem : List Mv),
      MpiMsg.terminate ∉ collectMsgs g pos depth k rem := by
  intro k
  induction k with
  | zero => intro rem; simp [collectMsgs]
  | succ j ih =>
    intro rem
    simp only [collectMsgs, List.mem_cons]
    rintro (h | h)
    · exact sendNextMsg_ne_terminate g pos depth rem h.symm
    · exact ih _ h

/-- C6 (amended): when the root position has at least one legal move, no
terminate signal is sent during a per-depth round (only work and no-work
signals are), and the driver trace consists of the round traces followed
by the terminate broadcast that happens only after the iterative
deepening loop; but when the root move list is empty the per-depth search
itself broadcasts the terminate signal (part_000 lines 368-376), so the
claim as stated fails there (see the counterexample). -/
theorem mpi_terminate_only_after_deepening {Pos : Type} (g : GameOps Pos)
    (pos : Pos) (maxDepth numWorkers : Nat)
    (hmv : (g.legalMoves pos).isEmpty = false) :
    (∀ d : Int, MpiMsg.terminate ∉ masterRoundMsgs g pos d numWorkers) ∧
    (∃ pre, bmsMpiMsgs g pos maxDepth numWorkers =
        pre ++ List.replicate numWorkers MpiMsg.terminate ∧
      MpiMsg.terminate ∉ pre) := by
  have hsne : (sortMoves g pos none (g.legalMoves pos)).isEmpty = false := by
    by_cases hs : sortMoves g pos none (g.legalMoves pos) = []
    · exfalso
      have : g.legalMoves pos = [] := by
        have hp := (sortMoves_perm g pos none (g.legalMoves pos)).symm
        rw [hs] at hp
        exact hp.eq_nil
      rw [this] at hmv
      simp at hmv
    · simpa [List.isEmpty_iff] using hs
  have hround : ∀ d : Int, MpiMsg.terminate ∉ masterRoundMsgs g pos d numWorkers := by
    intro d
    simp only [masterRoundMsgs]
    rw [if_neg (by simp [hsne])]
    rw [List.mem_append]
    rintro (h | h)
    · exact initialSends_ne_terminate g pos d numWorkers _ h
    · exact collectMsgs_ne_terminate g pos d _ _ h
  refine ⟨hround, _, rfl, ?_⟩
  intro hmem
  rw [List.mem_flatten] at hmem
  obtain ⟨s, hs, hterm⟩ := hmem
  rw [List.mem_map] at hs
  obtain ⟨i, _, rfl⟩ := hs
  exact hround _ hterm

/-- C6 counterexample: on a root position with no legal moves, the
per-depth search round itself sends the terminate signal (here: one
worker receives exactly [terminate] during the round), contradicting the
claim that -1 is never sent during a per-depth search round. -/
theorem mpi_terminate_only_after_deepening_counterexample :
    masterRoundMsgs (unitGame 0) () 1 1 = [MpiMsg.terminate] ∧
    MpiMsg.terminate ∈ masterRoundMsgs (unitGame 0) () 1 1 := by
  decide

/-- Witness for C6 (amended) on the one-move game with two workers at
depth 1. -/
theorem mpi_terminate_only_after_deepening_witness :
    MpiMsg.terminate ∉ masterRoundMsgs oneMoveGame () 1 2 :=
  (mpi_terminate_only_after_deepening oneMoveGame () 1 2 (by decide)).1 1

theorem masterBestFold_keep {Pos : Type} (g : GameOps Pos) :
    ∀ (items : List (Mv × Reply)) (init : SearchResultE) (m : Mv) (l : List Mv),
      init.pv = some (m :: l) →
      ∃ m2 l2,
        (items.foldl
            (fun best it =>
              let wr := masterAssemble g it.1 it.2
              if wr.score > best.score then wr else best) init).pv =
          some (m2 :: l2) := by
  intro items
  induction items with
  | nil => intro init m l h; exact ⟨m, l, h⟩
  | cons it rest ih =>
    intro init m l h
    rw [List.foldl_cons]
    by_cases hc : (masterAssemble g it.1 it.2).score > init.score
    · refine ih _ it.1 (it.2.pvVals.map g.moveOfValue) ?_
      simp only [if_pos hc]
      rfl
    · refine ih _ m l ?_
      simpa only [if_neg hc] using h

theorem masterBestFold_some {Pos : Type} (g : GameOps Pos) :
    ∀ items : List (Mv × Reply), (∃ it ∈ items, it.2.score < INFINITE) →
      ∃ m l, (masterBestFold g items).pv = some (m :: l) := by
  intro items
  induction items with
  | nil => rintro ⟨it, hmem, _⟩; simp at hmem
  | cons it rest ih =>
    rintro ⟨w, hw, hscore⟩
    simp only [masterBestFold, List.foldl_cons]
    by_cases hc : (masterAssemble g it.1 it.2).score >
        (⟨-INFINITE, none⟩ : SearchResultE).score
    · rw [if_pos hc]
      exact masterBestFold_keep g rest _ it.1 (it.2.pvVals.map g.moveOfValue) rfl
    · rw [if_neg hc]
      rcases List.mem_cons.1 hw with rfl | hw2
      · exfalso
        apply hc
        simp only [masterAssemble]
        omega
      · exact ih ⟨w, hw2, hscore⟩

/-- C10: every per-move result the master assembles has a non-empty PV
headed by the dispatched root move (a bare [root move] when the reply
carries pv_length 0), and consequently, as soon as one completed work
item carries a worker score below INFINITE (every real search score does,
by the spec invariant INFINITE > MATE_SCORE >= any score), the best
result of the round has a non-empty PV. -/
theorem master_assembled_pv_nonempty {Pos : Type} (g : GameOps Pos)
    (items : List (Mv × Reply)) (hw : ∃ it ∈ items, it.2.score < INFINITE) :
    (∀ (m : Mv) (rep : Reply),
      (masterAssemble g m rep).pv = some (m :: rep.pvVals.map g.moveOfValue)) ∧
    (∃ m l, (masterBestFold g items).pv = some (m :: l)) :=
  ⟨fun _ _ => rfl, masterBestFold_some g items hw⟩

/-- Witness for C10: a single completed item whose worker reply has
pv_length 0 and score 0: the per-move PV is exactly the root move and the
best result PV is non-empty. -/
theorem master_assembled_pv_nonempty_witness :
    (masterAssemble (unitGame 0) ⟨9, 0, 0, MvType.normal⟩ ⟨0, 0, []⟩).pv =
      some [⟨9, 0, 0, MvType.normal⟩] ∧
    (∃ m l, (masterBestFold (unitGame 0)
        [(⟨9, 0, 0, MvType.normal⟩, ⟨0, 0, []⟩)]).pv = some (m :: l)) := by
  have h := master_assembled_pv_nonempty (unitGame 0)
    [(⟨9, 0, 0, MvType.normal⟩, ⟨0, 0, []⟩)]
    ⟨(⟨9, 0, 0, MvType.normal⟩, ⟨0, 0, []⟩), by simp, by decide⟩
  exact ⟨(h.1 ⟨9, 0, 0, MvType.normal⟩ ⟨0, 0, []⟩).trans (by decide), h.2⟩

end HpcSearch
